import Mathlib

/-!
# AtomicWriteBackend: a verified model of the multi-key conditional atomic-write contract

This development embeds the storage-backend contract exercised by the
atomic-write compliance suite (`lib/web/features.go`, package `test`):
a key-value store with strongly consistent reads, revision-based optimistic
concurrency, and an all-or-nothing `AtomicWrite` over a batch of
per-key conditional actions.

The concrete backend implementation lives outside the excerpt, so the
operational definitions below are modelled from the specification of the
`AtomicWriteBackend` interface; the compliance tests in
`lib/web/features.go` pin its observable behavior.

Byte sequences (Go `[]byte`) are modelled as `List Nat`; revisions are
opaque tokens modelled as `Nat`, compared for equality only, assigned
freshly from a monotone counter so that a token never recurs.
-/

namespace Backend

/-- Byte sequences (`[]byte`) as lists of naturals. -/
abbrev Bytes := List Nat

/-- Modelled from the spec: an `Item` is a key, a value, and an opaque
monotonically-assigned per-key revision token (comparable for equality only). -/
structure Item where
  key : Bytes
  value : Bytes
  revision : Nat
  deriving DecidableEq, Repr

/-- First-match association lookup in a store (the store keeps at most one
live entry per key, and lookup observes the first). -/
def lookupS : List Item → Bytes → Option Item
  | [], _ => none
  | it :: rest, k => if it.key = k then some it else lookupS rest k

/-- Modelled from the spec: the persisted key/value/revision map plus the
monotone revision counter from which fresh tokens are drawn. -/
structure BackendState where
  store : List Item
  nextRev : Nat
  deriving DecidableEq, Repr

/-- Replace the entry for key `k` (or append one) with value `v` and revision `r`. -/
def putStore : List Item → Bytes → Bytes → Nat → List Item
  | [], k, v, r => [⟨k, v, r⟩]
  | it :: rest, k, v, r =>
    if it.key = k then ⟨k, v, r⟩ :: rest else it :: putStore rest k v r

/-- Remove every entry bearing key `k`. -/
def eraseStore (st : List Item) (k : Bytes) : List Item :=
  st.filter (fun it => decide (it.key ≠ k))

/-- Modelled from the spec: `Get(key) -> Item | NotFound`, a strongly
consistent read of the current committed state. -/
def getOp (s : BackendState) (k : Bytes) : Option Item :=
  lookupS s.store k

/-- Modelled from the spec: `Put(item) -> newRevision`, the unconditional
single-key upsert; it binds to the item's own key and returns the freshly
assigned revision. -/
def putOp (s : BackendState) (it : Item) : BackendState × Nat :=
  ({ store := putStore s.store it.key it.value s.nextRev, nextRev := s.nextRev + 1 },
   s.nextRev)

/-- Modelled from the spec: `Delete(key) -> () | NotFound`. -/
def deleteOp (s : BackendState) (k : Bytes) : Option BackendState :=
  if (lookupS s.store k).isSome then
    some { s with store := eraseStore s.store k }
  else none

/-- Modelled from the spec: the per-key condition variants `Whatever`,
`NotExists` and `Revision(r)`. -/
inductive Condition
  | whatever
  | notExists
  | revision (r : Nat)
  deriving DecidableEq, Repr

/-- Modelled from the spec: the per-key action variants `Put(item)`
(whose payload key field is ignored), `Delete` and `Nop`. -/
inductive Action
  | put (item : Item)
  | delete
  | nop
  deriving DecidableEq, Repr

/-- Modelled from the spec: a `ConditionalAction` is a (key, condition, action)
triple; the action binds to this key, never to a key inside a put payload. -/
structure ConditionalAction where
  key : Bytes
  condition : Condition
  action : Action
  deriving DecidableEq, Repr

/-- Modelled from the spec: the maximum number of `ConditionalAction` entries
per batch. The exact value is an external configuration constant; the model
fixes the concrete bound 64. -/
def MaxAtomicWriteSize : Nat := 64

/-- Modelled from the spec: condition evaluation against the current state.
`whatever` always holds, `notExists` holds iff the key is absent, and
`revision r` holds iff the key exists with revision exactly `r`. -/
def checkCond (s : BackendState) (k : Bytes) : Condition → Bool
  | .whatever => true
  | .notExists => (lookupS s.store k).isNone
  | .revision r =>
    match lookupS s.store k with
    | some it => decide (it.revision = r)
    | none => false

/-- Error classes surfaced by `AtomicWrite`: the retryable sentinel
`conditionFailed` and the non-retryable batch-size violation, distinguishable
by kind (distinct constructors), never by string matching. -/
inductive AWErr
  | conditionFailed
  | sizeExceeded
  deriving DecidableEq, Repr

/-- Apply one conditional action's action to the store, writing revision `rev`.
A put binds to the `ConditionalAction`'s own key; the payload's key field is
ignored. -/
def applyAction (st : List Item) (rev : Nat) (ca : ConditionalAction) : List Item :=
  match ca.action with
  | .put it => putStore st ca.key it.value rev
  | .delete => eraseStore st ca.key
  | .nop => st

/-- Modelled from the spec: `AtomicWrite(batch)`. Oversized batches are
rejected outright; otherwise every condition is evaluated against the
snapshot state, and only if all hold is every action applied, all mutations
receiving the same fresh revision, which is returned. -/
def atomicWrite (s : BackendState) (batch : List ConditionalAction) :
    Except AWErr (BackendState × Nat) :=
  if MaxAtomicWriteSize < batch.length then .error .sizeExceeded
  else if batch.all (fun ca => checkCond s ca.key ca.condition) then
    .ok ({ store := batch.foldl (fun st ca => applyAction st s.nextRev ca) s.store,
           nextRev := s.nextRev + 1 }, s.nextRev)
  else .error .conditionFailed

/-- The state transition of one `AtomicWrite` call: on failure the state is
unchanged and the error is surfaced; on success the new state and the
assigned revision are returned. -/
def awStep (s : BackendState) (batch : List ConditionalAction) :
    BackendState × Except AWErr Nat :=
  match atomicWrite s batch with
  | .ok (s', r) => (s', .ok r)
  | .error e => (s, .error e)

/-- The caller-visible verdict of an `AtomicWrite` call: the error, or the
single revision assigned to all mutations. -/
def awVerdict (s : BackendState) (batch : List ConditionalAction) : Except AWErr Nat :=
  (atomicWrite s batch).map (fun p => p.2)

/-- Revision-freshness well-formedness: every stored revision token was drawn
from the counter, hence is strictly below `nextRev`. -/
def wf (s : BackendState) : Bool :=
  s.store.all (fun it => decide (it.revision < s.nextRev))

/-- The effect of one conditional action on the lookup result at key `k`. -/
def applyKey (rev : Nat) (k : Bytes) (cur : Option Item) (ca : ConditionalAction) :
    Option Item :=
  if ca.key = k then
    match ca.action with
    | .put it => some ⟨k, it.value, rev⟩
    | .delete => none
    | .nop => cur
  else cur

/-! ## Test-suite batch shapes and the concurrent counter pattern -/

/-- The lock pattern batch (`testAtomicWriteLock`): a `NotExists` gate on the
lock key `lk` with a pure `Nop`, guarding an unconditional put of `v` on the
item key `ik`. -/
def lockBatch (lk ik v : Bytes) : List ConditionalAction :=
  [⟨lk, .notExists, .nop⟩, ⟨ik, .whatever, .put ⟨[], v, 0⟩⟩]

/-- The move pattern batch (`testAtomicWriteMove`): delete source key `a`
conditioned on its last-read revision `r`, unconditionally put `v` at `b`. -/
def moveBatch (a b : Bytes) (r : Nat) (v : Bytes) : List ConditionalAction :=
  [⟨a, .revision r, .delete⟩, ⟨b, .whatever, .put ⟨[], v, 0⟩⟩]

/-- Overwrite the key field embedded in a put action's payload (used to state
that this field is ignored). -/
def setPayloadKey (k : Bytes) (ca : ConditionalAction) : ConditionalAction :=
  match ca.action with
  | .put it => ⟨ca.key, ca.condition, .put ⟨k, it.value, it.revision⟩⟩
  | _ => ca

/-- Little-endian decimal digits of `n`, with structural fuel. -/
def digitsAux : Nat → Nat → List Nat
  | 0, _ => []
  | _ + 1, 0 => []
  | fuel + 1, m + 1 => ((m + 1) % 10) :: digitsAux fuel ((m + 1) / 10)

/-- Value of a little-endian decimal digit list. -/
def ofDigitsRev : List Nat → Nat
  | [] => 0
  | d :: ds => d + 10 * ofDigitsRev ds

/-- Modelled from the spec: `strconv.Itoa`, the decimal ASCII byte string of a
natural number (as used by the concurrent counter increment pattern). -/
def encodeNat (n : Nat) : Bytes :=
  if n = 0 then [48] else ((digitsAux n n).map (fun d => d + 48)).reverse

/-- Modelled from the spec: `strconv.Atoi` restricted to the byte strings
produced by `encodeNat`. -/
def decodeNat (v : Bytes) : Nat :=
  ofDigitsRev (v.reverse.map (fun c => c - 48))

/-- What a worker observes when reading the counter: its value and revision. -/
structure Obs where
  value : Bytes
  revision : Nat
  deriving DecidableEq, Repr

/-- The counter observation offered by state `s` at key `k`. -/
def obsOf (s : BackendState) (k : Bytes) : Option Obs :=
  (lookupS s.store k).map (fun it => ⟨it.value, it.revision⟩)

/-- The single-entry batch of one counter-increment attempt
(`testAtomicWriteConcurrent`): put the decoded observed value plus one,
conditioned on the observed revision. -/
def incrBatch (ck : Bytes) (o : Obs) : List ConditionalAction :=
  [⟨ck, .revision o.revision, .put ⟨[], encodeNat (decodeNat o.value + 1), 0⟩⟩]

/-- One worker increment attempt: the resulting state and whether the
conditional write succeeded (a `conditionFailed` outcome leaves the state
unchanged and the worker retries). -/
def incrAttempt (ck : Bytes) (s : BackendState) (o : Obs) : BackendState × Bool :=
  match atomicWrite s (incrBatch ck o) with
  | .ok (s', _) => (s', true)
  | .error _ => (s, false)

/-- Run an interleaved trace of increment attempts (each backend call is
atomic, so any concurrent schedule of N workers is one such sequence);
returns the final state and the total number of successful increments. -/
def runIncr (ck : Bytes) : BackendState → List Obs → BackendState × Nat
  | s, [] => (s, 0)
  | s, o :: os =>
    let p := incrAttempt ck s o
    let q := runIncr ck p.1 os
    (q.1, (if p.2 then 1 else 0) + q.2)

/-- A trace is valid when every attempt's observation was actually produced by
a strongly consistent read of some (current or earlier) state of the run —
the linearizable-reads requirement of the contract. -/
def validTrace (ck : Bytes) : List BackendState → BackendState → List Obs → Bool
  | _, _, [] => true
  | hist, s, o :: os =>
    decide (some o ∈ (s :: hist).map (fun h => obsOf h ck)) &&
    validTrace ck (s :: hist) (incrAttempt ck s o).1 os

/-- Run invariant for the concurrent counter: the counter currently encodes
`n` at some revision `r` below the fresh-revision counter, the state is
well-formed, and every observation any past state ever offered is either
stale (its revision can never be current again) or agrees with the current
value. -/
def CounterInv (ck : Bytes) (hist : List BackendState) (s : BackendState) (n : Nat) : Prop :=
  wf s = true ∧
  ∃ r, obsOf s ck = some ⟨encodeNat n, r⟩ ∧
    ∀ h ∈ s :: hist, ∀ o : Obs, obsOf h ck = some o →
      o.revision < s.nextRev ∧ (o.revision = r → o.value = encodeNat n)

/-- Staleness invariant: the counter exists and its current revision is
strictly above `p`, so a `Revision(p)` condition can never hold again. -/
def StaleInv (ck : Bytes) (p : Nat) (s : BackendState) : Prop :=
  wf s = true ∧ ∃ it, lookupS s.store ck = some it ∧ p < it.revision

/-! ## Store-level lemmas -/

theorem lookupS_putStore (st : List Item) (k v : Bytes) (r : Nat) (k' : Bytes) :
    lookupS (putStore st k v r) k' =
      if k = k' then some ⟨k, v, r⟩ else lookupS st k' := by
  induction st with
  | nil => simp [putStore, lookupS]
  | cons it rest ih =>
    simp only [putStore]
    by_cases h : it.key = k
    · simp only [if_pos h, lookupS]
      by_cases h2 : k = k'
      · simp [h2]
      · have hne : ¬ it.key = k' := by rw [h]; exact h2
        simp [h2, hne]
    · simp only [if_neg h, lookupS]
      by_cases h2 : it.key = k'
      · have hne : ¬ k = k' := by
          intro e
          exact h (by rw [e, h2])
        simp [h2, hne]
      · simp [h2, ih]

theorem lookupS_eraseStore (st : List Item) (k k' : Bytes) :
    lookupS (eraseStore st k) k' = if k = k' then none else lookupS st k' := by
  induction st with
  | nil => simp [eraseStore, lookupS]
  | cons it rest ih =>
    simp only [eraseStore] at ih ⊢
    rw [List.filter_cons]
    by_cases h : it.key = k
    · rw [decide_eq_false (fun hn => hn h)]
      simp only [Bool.false_eq_true, if_false]
      rw [ih]
      by_cases h2 : k = k'
      · simp [h2]
      · have hne : ¬ it.key = k' := by rw [h]; exact h2
        simp [h2, lookupS, hne]
    · rw [decide_eq_true h]
      simp only [if_true, lookupS]
      by_cases h2 : it.key = k'
      · have hne : ¬ k = k' := by
          intro e
          exact h (by rw [e, h2])
        rw [if_pos h2, if_neg hne, if_pos h2]
      · simp only [if_neg h2]
        exact ih

theorem lookupS_applyAction (st : List Item) (rev : Nat) (ca : ConditionalAction)
    (k : Bytes) :
    lookupS (applyAction st rev ca) k = applyKey rev k (lookupS st k) ca := by
  cases hact : ca.action with
  | put it =>
    simp only [applyAction, hact, applyKey, lookupS_putStore]
    by_cases h : ca.key = k <;> simp [h]
  | delete =>
    simp only [applyAction, hact, applyKey, lookupS_eraseStore]
  | nop => simp [applyAction, hact, applyKey]

theorem lookupS_applyBatch (rev : Nat) (k : Bytes) (b : List ConditionalAction) :
    ∀ st, lookupS (b.foldl (fun st ca => applyAction st rev ca) st) k =
      b.foldl (applyKey rev k) (lookupS st k) := by
  induction b with
  | nil => intro st; rfl
  | cons ca rest ih =>
    intro st
    simp only [List.foldl_cons]
    rw [ih, lookupS_applyAction]

theorem applyKey_foldl_filter (rev : Nat) (k : Bytes) (b : List ConditionalAction) :
    ∀ cur, b.foldl (applyKey rev k) cur =
      (b.filter (fun ca => decide (ca.key = k))).foldl (applyKey rev k) cur := by
  induction b with
  | nil => intro cur; rfl
  | cons ca rest ih =>
    intro cur
    simp only [List.foldl_cons, List.filter_cons, decide_eq_true_eq]
    by_cases h : ca.key = k
    · rw [if_pos h]
      simp only [List.foldl_cons]
      exact ih _
    · have hcur : applyKey rev k cur ca = cur := by simp [applyKey, h]
      rw [if_neg h, hcur]
      exact ih _

theorem mem_putStore (st : List Item) (k v : Bytes) (r : Nat) (x : Item) :
    x ∈ putStore st k v r → x = ⟨k, v, r⟩ ∨ x ∈ st := by
  induction st with
  | nil => simp [putStore]
  | cons it rest ih =>
    simp only [putStore]
    by_cases h : it.key = k
    · simp only [if_pos h, List.mem_cons]
      rintro (h1 | h2)
      · exact Or.inl h1
      · exact Or.inr (Or.inr h2)
    · simp only [if_neg h, List.mem_cons]
      rintro (h1 | h2)
      · exact Or.inr (Or.inl h1)
      · rcases ih h2 with h3 | h4
        · exact Or.inl h3
        · exact Or.inr (Or.inr h4)

theorem lookupS_mem (st : List Item) (k : Bytes) (it : Item) :
    lookupS st k = some it → it ∈ st ∧ it.key = k := by
  induction st with
  | nil => intro h; cases h
  | cons hd rest ih =>
    simp only [lookupS]
    by_cases h : hd.key = k
    · simp only [if_pos h]
      intro he
      cases he
      exact ⟨List.mem_cons_self _ _, h⟩
    · simp only [if_neg h]
      intro he
      rcases ih he with ⟨hm, hk⟩
      exact ⟨List.mem_cons.mpr (Or.inr hm), hk⟩

theorem filter_key_eq_nil (b : List ConditionalAction) (k : Bytes)
    (h : k ∉ b.map (fun ca => ca.key)) :
    b.filter (fun ca => decide (ca.key = k)) = [] := by
  rw [List.filter_eq_nil_iff]
  intro ca hca
  simp only [decide_eq_true_eq]
  intro he
  exact h (List.mem_map.mpr ⟨ca, hca, he⟩)

theorem filter_key_singleton (b : List ConditionalAction) (ca : ConditionalAction)
    (hnd : (b.map (fun cb => cb.key)).Nodup) (hmem : ca ∈ b) :
    b.filter (fun cb => decide (cb.key = ca.key)) = [ca] := by
  induction b with
  | nil => cases hmem
  | cons hd rest ih =>
    rw [List.map_cons, List.nodup_cons] at hnd
    rcases List.mem_cons.mp hmem with he | hm
    · subst he
      rw [List.filter_cons, if_pos (by simp)]
      rw [filter_key_eq_nil rest ca.key hnd.1]
    · have hne : ¬ hd.key = ca.key := by
        intro he
        exact hnd.1 (he ▸ List.mem_map.mpr ⟨ca, hm, rfl⟩)
      rw [List.filter_cons, if_neg (by simp [hne])]
      exact ih hnd.2 hm

theorem all_perm {α : Type} (p : α → Bool) {l1 l2 : List α} (h : l1.Perm l2) :
    l1.all p = l2.all p := by
  cases hb : l2.all p
  · cases hb1 : l1.all p
    · rfl
    · exfalso
      rw [List.all_eq_true] at hb1
      have h2 : l2.all p = true :=
        List.all_eq_true.mpr fun x hx => hb1 x (h.mem_iff.mpr hx)
      rw [hb] at h2
      cases h2
  · rw [List.all_eq_true] at hb
    exact List.all_eq_true.mpr fun x hx => hb x (h.mem_iff.mp hx)

theorem wf_iff (s : BackendState) :
    wf s = true ↔ ∀ it ∈ s.store, it.revision < s.nextRev := by
  simp [wf, List.all_eq_true]

/-! ## AtomicWrite characterization -/

theorem atomicWrite_ok (s : BackendState) (batch : List ConditionalAction)
    (hlen : batch.length ≤ MaxAtomicWriteSize)
    (hconds : batch.all (fun ca => checkCond s ca.key ca.condition) = true) :
    atomicWrite s batch =
      .ok ({ store := batch.foldl (fun st ca => applyAction st s.nextRev ca) s.store,
             nextRev := s.nextRev + 1 }, s.nextRev) := by
  rw [atomicWrite, if_neg (Nat.not_lt.mpr hlen), if_pos hconds]

theorem atomicWrite_failed (s : BackendState) (batch : List ConditionalAction)
    (hlen : batch.length ≤ MaxAtomicWriteSize)
    (hfail : batch.all (fun ca => checkCond s ca.key ca.condition) = false) :
    atomicWrite s batch = .error .conditionFailed := by
  rw [atomicWrite, if_neg (Nat.not_lt.mpr hlen), if_neg (by rw [hfail]; exact Bool.false_ne_true)]

theorem all_eq_false_of_exists {α : Type} (p : α → Bool) (l : List α)
    (h : ∃ x ∈ l, p x = false) : l.all p = false := by
  cases hb : l.all p
  · rfl
  · exfalso
    rw [List.all_eq_true] at hb
    rcases h with ⟨x, hx, hpx⟩
    rw [hb x hx] at hpx
    cases hpx

theorem atomicWrite_ok_inv (s : BackendState) (batch : List ConditionalAction)
    (s' : BackendState) (r : Nat)
    (hok : atomicWrite s batch = .ok (s', r)) :
    batch.length ≤ MaxAtomicWriteSize ∧
    batch.all (fun ca => checkCond s ca.key ca.condition) = true ∧
    r = s.nextRev ∧ s'.nextRev = s.nextRev + 1 ∧
    ∀ k, getOp s' k =
      (batch.filter (fun ca => decide (ca.key = k))).foldl
        (applyKey s.nextRev k) (getOp s k) := by
  rw [atomicWrite] at hok
  by_cases h1 : MaxAtomicWriteSize < batch.length
  · rw [if_pos h1] at hok
    cases hok
  · rw [if_neg h1] at hok
    by_cases h2 : batch.all (fun ca => checkCond s ca.key ca.condition) = true
    · rw [if_pos h2] at hok
      injection hok with h3
      have hs : s' = { store := batch.foldl (fun st ca => applyAction st s.nextRev ca) s.store,
                       nextRev := s.nextRev + 1 } := by
        have := congrArg Prod.fst h3
        exact this.symm
      have hr : r = s.nextRev := by
        have := congrArg Prod.snd h3
        exact this.symm
      refine ⟨Nat.not_lt.mp h1, h2, hr, by rw [hs], ?_⟩
      intro k
      rw [hs]
      show lookupS (batch.foldl (fun st ca => applyAction st s.nextRev ca) s.store) k = _
      rw [lookupS_applyBatch, applyKey_foldl_filter]
      rfl
    · rw [if_neg h2] at hok
      cases hok

theorem getOp_after_ok_nodup (s : BackendState) (batch : List ConditionalAction)
    (s' : BackendState) (r : Nat)
    (hok : atomicWrite s batch = .ok (s', r))
    (hnd : (batch.map (fun ca => ca.key)).Nodup) :
    ∀ ca ∈ batch, getOp s' ca.key = applyKey s.nextRev ca.key (getOp s ca.key) ca := by
  intro ca hca
  have hinv := atomicWrite_ok_inv s batch s' r hok
  rw [hinv.2.2.2.2 ca.key, filter_key_singleton batch ca hnd hca]
  rfl

theorem wf_putStore (s : BackendState) (k v : Bytes) (hwf : wf s = true) :
    wf ⟨putStore s.store k v s.nextRev, s.nextRev + 1⟩ = true := by
  rw [wf_iff] at hwf ⊢
  intro it hit
  rcases mem_putStore s.store k v s.nextRev it hit with he | hm
  · rw [he]
    exact Nat.lt_succ_self _
  · exact Nat.lt_succ_of_lt (hwf it hm)

/-! ## Decimal encoding of counter values (`strconv.Itoa` / `strconv.Atoi`) -/

theorem ofDigitsRev_digitsAux : ∀ fuel n, n ≤ fuel → ofDigitsRev (digitsAux fuel n) = n := by
  intro fuel
  induction fuel with
  | zero =>
    intro n hn
    rw [Nat.le_zero.mp hn]
    rfl
  | succ fuel ih =>
    intro n hn
    match n with
    | 0 => rfl
    | m + 1 =>
      simp only [digitsAux, ofDigitsRev]
      have hlt : (m + 1) / 10 < m + 1 := Nat.div_lt_self (Nat.succ_pos m) (by omega)
      rw [ih ((m + 1) / 10) (by omega)]
      exact Nat.mod_add_div (m + 1) 10

theorem decodeNat_encodeNat (n : Nat) : decodeNat (encodeNat n) = n := by
  by_cases h : n = 0
  · rw [h]
    rfl
  · simp only [encodeNat, if_neg h, decodeNat, List.reverse_reverse, List.map_map]
    have hmap : ((digitsAux n n).map ((fun c => c - 48) ∘ fun d => d + 48)) = digitsAux n n := by
      have : ((fun c => c - 48) ∘ fun d : Nat => d + 48) = fun d : Nat => d := by
        funext d
        simp
      rw [this, List.map_id']
    rw [hmap]
    exact ofDigitsRev_digitsAux n n (Nat.le_refl n)

/-! ## Claim theorems -/

/-- C1: if any condition in an admissible batch fails against the current
state, `AtomicWrite` applies no action: the step leaves the state unchanged
and surfaces the `conditionFailed` sentinel, a distinct error kind from the
size error (a kind check, not string matching), and re-reading every key in
the batch afterwards observes unchanged values and revisions. -/
theorem atomicWrite_condition_failed_frame (s : BackendState)
    (batch : List ConditionalAction)
    (hlen : batch.length ≤ MaxAtomicWriteSize)
    (hfail : ∃ ca ∈ batch, checkCond s ca.key ca.condition = false) :
    awStep s batch = (s, .error .conditionFailed) ∧
    AWErr.conditionFailed ≠ AWErr.sizeExceeded ∧
    ∀ ca ∈ batch, getOp (awStep s batch).1 ca.key = getOp s ca.key := by
  have hall : batch.all (fun ca => checkCond s ca.key ca.condition) = false :=
    all_eq_false_of_exists _ _ hfail
  have hstep : awStep s batch = (s, .error .conditionFailed) := by
    rw [awStep, atomicWrite_failed s batch hlen hall]
  refine ⟨hstep, ?_, ?_⟩
  · intro h
    cases h
  · intro ca hca
    rw [hstep]

/-- Witness for C1: a `NotExists` condition on an existing key fails and the
state is untouched. -/
theorem atomicWrite_condition_failed_frame_witness :
    awStep ⟨[⟨[1], [2], 0⟩], 1⟩ [⟨[1], .notExists, .nop⟩]
      = (⟨[⟨[1], [2], 0⟩], 1⟩, .error .conditionFailed) :=
  (atomicWrite_condition_failed_frame ⟨[⟨[1], [2], 0⟩], 1⟩ [⟨[1], .notExists, .nop⟩]
    (by decide) ⟨⟨[1], .notExists, .nop⟩, by decide, by decide⟩).1

/-- C3: the batch-size bound is enforced exactly: any batch with more than
`MaxAtomicWriteSize` entries fails with the size error before touching
storage (every key re-reads unchanged), while an otherwise-valid batch of
exactly `MaxAtomicWriteSize` entries succeeds. -/
theorem atomicWrite_max_size_exact (s : BackendState)
    (big small : List ConditionalAction) :
    (MaxAtomicWriteSize < big.length →
      awStep s big = (s, .error .sizeExceeded) ∧
      ∀ k, getOp (awStep s big).1 k = getOp s k) ∧
    (small.length = MaxAtomicWriteSize →
      small.all (fun ca => checkCond s ca.key ca.condition) = true →
      ∃ s', atomicWrite s small = .ok (s', s.nextRev)) := by
  constructor
  · intro hbig
    have hstep : awStep s big = (s, .error .sizeExceeded) := by
      rw [awStep, atomicWrite, if_pos hbig]
    exact ⟨hstep, fun k => by rw [hstep]⟩
  · intro hlen hconds
    exact ⟨_, atomicWrite_ok s small (by rw [hlen]) hconds⟩

/-- Witness for C3: 65 conditional actions are rejected with the state
untouched; the same batch truncated to 64 entries succeeds. -/
theorem atomicWrite_max_size_exact_witness :
    awStep ⟨[], 0⟩ ((List.range 65).map (fun i => ⟨[i], .whatever, .nop⟩)) =
      (⟨[], 0⟩, .error .sizeExceeded) ∧
    ∃ s', atomicWrite ⟨[], 0⟩ ((List.range 64).map (fun i => ⟨[i], .whatever, .nop⟩))
      = .ok (s', 0) :=
  ⟨((atomicWrite_max_size_exact ⟨[], 0⟩
      ((List.range 65).map (fun i => ⟨[i], .whatever, .nop⟩))
      ((List.range 64).map (fun i => ⟨[i], .whatever, .nop⟩))).1 (by decide)).1,
   (atomicWrite_max_size_exact ⟨[], 0⟩
      ((List.range 65).map (fun i => ⟨[i], .whatever, .nop⟩))
      ((List.range 64).map (fun i => ⟨[i], .whatever, .nop⟩))).2 (by decide) (by decide)⟩

/-- C4: condition evaluation follows the tagged-variant semantics exactly
(`whatever` always true; `notExists` true iff the key is absent; `revision r`
true iff the key exists with revision exactly `r`, so a rewritten or
deleted-and-recreated key fails the condition); consequently the
`NotExists`-gated lock batch fails with `conditionFailed` while the lock key
exists, leaving the gated key unmodified, and succeeds again after the lock
key is deleted. -/
theorem condition_semantics_lock (s : BackendState) (lk ik v : Bytes)
    (hlock : (getOp s lk).isSome = true) :
    (∀ k, checkCond s k .whatever = true) ∧
    (∀ k, (checkCond s k .notExists = true ↔ getOp s k = none)) ∧
    (∀ k r, (checkCond s k (.revision r) = true ↔
      ∃ it, getOp s k = some it ∧ it.revision = r)) ∧
    awStep s (lockBatch lk ik v) = (s, .error .conditionFailed) ∧
    getOp (awStep s (lockBatch lk ik v)).1 ik = getOp s ik ∧
    (∀ s1, deleteOp s lk = some s1 →
      ∃ s2, atomicWrite s1 (lockBatch lk ik v) = .ok (s2, s1.nextRev) ∧
        getOp s2 ik = some ⟨ik, v, s1.nextRev⟩) ∧
    (∀ it, getOp s lk = some it → wf s = true →
      ∀ s1, deleteOp s lk = some s1 → ∀ v2,
        checkCond (putOp s1 ⟨lk, v2, 0⟩).1 lk (.revision it.revision) = false) := by
  rcases Option.isSome_iff_exists.mp hlock with ⟨itl, hitl⟩
  have hitl' : lookupS s.store lk = some itl := hitl
  have hCfalse : checkCond s lk Condition.notExists = false := by
    show (lookupS s.store lk).isNone = false
    rw [hitl']
    rfl
  have hlock' : (lookupS s.store lk).isSome = true := hlock
  have hlen2 : (lockBatch lk ik v).length ≤ MaxAtomicWriteSize := by
    show 2 ≤ 64
    omega
  have hfailstep : awStep s (lockBatch lk ik v) = (s, .error .conditionFailed) := by
    rw [awStep, atomicWrite_failed s (lockBatch lk ik v) hlen2
      (all_eq_false_of_exists _ _ ⟨⟨lk, .notExists, .nop⟩, List.mem_cons_self _ _, hCfalse⟩)]
  refine ⟨fun k => rfl, ?_, ?_, hfailstep, by rw [hfailstep], ?_, ?_⟩
  · intro k
    show (lookupS s.store k).isNone = true ↔ lookupS s.store k = none
    exact Option.isNone_iff_eq_none
  · intro k r
    show (checkCond s k (.revision r) = true) ↔ _
    cases hk : lookupS s.store k with
    | none =>
      constructor
      · intro hc
        simp only [checkCond, hk] at hc
        exact (Bool.false_ne_true hc).elim
      · rintro ⟨it, hit, -⟩
        rw [show getOp s k = lookupS s.store k from rfl, hk] at hit
        cases hit
    | some it' =>
      constructor
      · intro hc
        simp only [checkCond, hk, decide_eq_true_eq] at hc
        exact ⟨it', hk, hc⟩
      · rintro ⟨it, hit, hrev⟩
        rw [show getOp s k = lookupS s.store k from rfl, hk] at hit
        cases hit
        simp only [checkCond, hk, decide_eq_true_eq]
        exact hrev
  · intro s1 hdel
    rw [deleteOp, if_pos hlock'] at hdel
    injection hdel with hdel
    have hs1 : s1 = { s with store := eraseStore s.store lk } := hdel.symm
    have hconds : (lockBatch lk ik v).all
        (fun ca => checkCond s1 ca.key ca.condition) = true := by
      rw [hs1]
      simp only [lockBatch, List.all_cons, List.all_nil, Bool.and_true, Bool.and_eq_true]
      constructor
      · show (lookupS (eraseStore s.store lk) lk).isNone = true
        rw [lookupS_eraseStore, if_pos rfl]
        rfl
      · rfl
    refine ⟨_, atomicWrite_ok s1 (lockBatch lk ik v) hlen2 hconds, ?_⟩
    show lookupS _ ik = _
    rw [show (lockBatch lk ik v).foldl
          (fun st ca => applyAction st s1.nextRev ca) s1.store
        = putStore s1.store ik v s1.nextRev from rfl]
    rw [lookupS_putStore, if_pos rfl]
  · intro it hit hwf s1 hdel v2
    rw [deleteOp, if_pos hlock'] at hdel
    injection hdel with hdel
    have hs1 : s1 = { s with store := eraseStore s.store lk } := hdel.symm
    have hrev : it.revision < s.nextRev := by
      rcases lookupS_mem s.store lk it hit with ⟨hmem, -⟩
      exact (wf_iff s).mp hwf it hmem
    show checkCond _ lk (.revision it.revision) = false
    have hlook : lookupS (putOp s1 ⟨lk, v2, 0⟩).1.store lk
        = some ⟨lk, v2, s1.nextRev⟩ := by
      show lookupS (putStore s1.store lk v2 s1.nextRev) lk = _
      rw [lookupS_putStore, if_pos rfl]
    simp only [checkCond, hlook, decide_eq_false_iff_not]
    have hnr : s1.nextRev = s.nextRev := by rw [hs1]
    omega

/-- Witness for C4: with lock key [9] present the gated batch fails; after
deleting the lock it succeeds again. -/
theorem condition_semantics_lock_witness :
    awStep ⟨[⟨[9], [1], 0⟩, ⟨[5], [2], 1⟩], 2⟩ (lockBatch [9] [5] [3]) =
      (⟨[⟨[9], [1], 0⟩, ⟨[5], [2], 1⟩], 2⟩, .error .conditionFailed) ∧
    ∃ s2, atomicWrite ⟨[⟨[5], [2], 1⟩], 2⟩ (lockBatch [9] [5] [3]) = .ok (s2, 2) ∧
      getOp s2 [5] = some ⟨[5], [3], 2⟩ :=
  ⟨(condition_semantics_lock ⟨[⟨[9], [1], 0⟩, ⟨[5], [2], 1⟩], 2⟩ [9] [5] [3]
      (by decide)).2.2.2.1,
   (condition_semantics_lock ⟨[⟨[9], [1], 0⟩, ⟨[5], [2], 1⟩], 2⟩ [9] [5] [3]
      (by decide)).2.2.2.2.2.1 ⟨[⟨[5], [2], 1⟩], 2⟩ (by decide)⟩

/-- C6: the move pattern succeeds exactly once: deleting key `a` under
`Revision(r)` (its last-read revision) while unconditionally putting `v` at
key `b` succeeds, after which `Get a` is NotFound and `Get b` returns the
moved value at the call's returned revision; repeating the identical batch
then fails with the `conditionFailed` sentinel, the token `r` being stale. -/
theorem atomicWrite_move_once (s : BackendState) (a b v : Bytes) (r : Nat)
    (hab : a ≠ b)
    (hsrc : ∃ it, getOp s a = some it ∧ it.revision = r) :
    ∃ s', atomicWrite s (moveBatch a b r v) = .ok (s', s.nextRev) ∧
      getOp s' a = none ∧
      getOp s' b = some ⟨b, v, s.nextRev⟩ ∧
      atomicWrite s' (moveBatch a b r v) = .error .conditionFailed := by
  rcases hsrc with ⟨it, hit, hrev⟩
  have hit' : lookupS s.store a = some it := hit
  have hlen : (moveBatch a b r v).length ≤ MaxAtomicWriteSize := by
    show 2 ≤ 64
    omega
  have hconds : (moveBatch a b r v).all
      (fun ca => checkCond s ca.key ca.condition) = true := by
    simp only [moveBatch, List.all_cons, List.all_nil, Bool.and_true, Bool.and_eq_true]
    constructor
    · simp only [checkCond, hit', decide_eq_true_eq]
      exact hrev
    · rfl
  have hok := atomicWrite_ok s (moveBatch a b r v) hlen hconds
  have hstore : (moveBatch a b r v).foldl
      (fun st ca => applyAction st s.nextRev ca) s.store
      = putStore (eraseStore s.store a) b v s.nextRev := rfl
  refine ⟨_, hok, ?_, ?_, ?_⟩
  · show lookupS _ a = none
    rw [hstore, lookupS_putStore, if_neg (fun h => hab h.symm), lookupS_eraseStore,
      if_pos rfl]
  · show lookupS _ b = _
    rw [hstore, lookupS_putStore, if_pos rfl]
  · have hnone : lookupS (putStore (eraseStore s.store a) b v s.nextRev) a = none := by
      rw [lookupS_putStore, if_neg (fun h => hab h.symm), lookupS_eraseStore, if_pos rfl]
    apply atomicWrite_failed _ _ hlen
    apply all_eq_false_of_exists
    refine ⟨⟨a, .revision r, .delete⟩, List.mem_cons_self _ _, ?_⟩
    show checkCond _ a (.revision r) = false
    simp only [checkCond, hstore, hnone]

/-- Witness for C6 at a concrete one-item state. -/
theorem atomicWrite_move_once_witness :
    ∃ s', atomicWrite ⟨[⟨[1], [5], 0⟩], 1⟩ (moveBatch [1] [2] 0 [5]) = .ok (s', 1) ∧
      getOp s' [1] = none ∧
      getOp s' [2] = some ⟨[2], [5], 1⟩ ∧
      atomicWrite s' (moveBatch [1] [2] 0 [5]) = .error .conditionFailed :=
  atomicWrite_move_once ⟨[⟨[1], [5], 0⟩], 1⟩ [1] [2] [5] 0 (by decide)
    ⟨⟨[1], [5], 0⟩, rfl, rfl⟩

/-- C2 counterexample: on the empty state, with the two-entry batch
`[Put [7] at key [1]; Delete key [1]]` every condition (`whatever`) holds and
the call succeeds, the batch contains a Put on key [1], yet a subsequent Get
on key [1] is NotFound rather than the put value at the returned revision:
with duplicate keys, not every key that received a Put can be re-read. -/
theorem atomicWrite_success_reread_counterexample :
    atomicWrite ⟨[], 0⟩
        [⟨[1], .whatever, .put ⟨[], [7], 0⟩⟩, ⟨[1], .whatever, .delete⟩]
      = .ok (⟨[], 1⟩, 0) ∧
    (∃ ca ∈ ([⟨[1], .whatever, .put ⟨[], [7], 0⟩⟩, ⟨[1], .whatever, .delete⟩] :
        List ConditionalAction), ca.key = [1] ∧ ca.action = .put ⟨[], [7], 0⟩) ∧
    getOp ⟨[], 1⟩ [1] = none :=
  ⟨rfl, by decide, rfl⟩

/-- C2 (amended: restricted to batches whose keys are pairwise distinct, the
form every compliance test exercises; with duplicate keys the conjunction is
unsatisfiable under any order of application, see the counterexample): when
all conditions hold, `AtomicWrite` applies every action, every mutation
receives the same fresh revision — which is returned — and a subsequent Get
on every put key returns that key with the new value at the returned
revision, while every deleted key reads back NotFound. -/
theorem atomicWrite_success_applies_all (s : BackendState)
    (batch : List ConditionalAction)
    (hlen : batch.length ≤ MaxAtomicWriteSize)
    (hconds : batch.all (fun ca => checkCond s ca.key ca.condition) = true)
    (hnd : (batch.map (fun ca => ca.key)).Nodup) :
    ∃ s', atomicWrite s batch = .ok (s', s.nextRev) ∧
      (∀ ca ∈ batch, ∀ it, ca.action = .put it →
        getOp s' ca.key = some ⟨ca.key, it.value, s.nextRev⟩) ∧
      (∀ ca ∈ batch, ca.action = .delete → getOp s' ca.key = none) := by
  have hok := atomicWrite_ok s batch hlen hconds
  refine ⟨_, hok, ?_, ?_⟩
  · intro ca hca it hput
    rw [getOp_after_ok_nodup s batch _ _ hok hnd ca hca]
    simp [applyKey, hput]
  · intro ca hca hdel
    rw [getOp_after_ok_nodup s batch _ _ hok hnd ca hca]
    simp [applyKey, hdel]

/-- Witness for C2 (amended) on a two-key batch mixing a put and a delete. -/
theorem atomicWrite_success_applies_all_witness :
    ∃ s', atomicWrite ⟨[⟨[2], [9], 0⟩], 1⟩
        [⟨[1], .whatever, .put ⟨[], [7], 0⟩⟩, ⟨[2], .revision 0, .delete⟩]
      = .ok (s', 1) ∧
      (∀ ca ∈ ([⟨[1], .whatever, .put ⟨[], [7], 0⟩⟩, ⟨[2], .revision 0, .delete⟩] :
          List ConditionalAction), ∀ it, ca.action = .put it →
        getOp s' ca.key = some ⟨ca.key, it.value, 1⟩) ∧
      (∀ ca ∈ ([⟨[1], .whatever, .put ⟨[], [7], 0⟩⟩, ⟨[2], .revision 0, .delete⟩] :
          List ConditionalAction), ca.action = .delete → getOp s' ca.key = none) :=
  atomicWrite_success_applies_all ⟨[⟨[2], [9], 0⟩], 1⟩
    [⟨[1], .whatever, .put ⟨[], [7], 0⟩⟩, ⟨[2], .revision 0, .delete⟩]
    (by decide) (by decide) (by decide)

/-- C5: a successful `AtomicWrite` advances the revision of every put key even
when the put value is byte-for-byte identical to the stored value — the
statement is value-agnostic, so it covers pure rewrites and
partially-redundant batches alike: every put key re-reads at the returned
fresh revision, and that revision differs from whatever revision the key had
before the call. -/
theorem atomicWrite_no_noop_elision (s : BackendState)
    (batch : List ConditionalAction)
    (hlen : batch.length ≤ MaxAtomicWriteSize)
    (hconds : batch.all (fun ca => checkCond s ca.key ca.condition) = true)
    (hnd : (batch.map (fun ca => ca.key)).Nodup)
    (hwf : wf s = true) :
    ∃ s', atomicWrite s batch = .ok (s', s.nextRev) ∧
      ∀ ca ∈ batch, ∀ it, ca.action = .put it →
        getOp s' ca.key = some ⟨ca.key, it.value, s.nextRev⟩ ∧
        ∀ old, getOp s ca.key = some old → old.revision ≠ s.nextRev := by
  have hok := atomicWrite_ok s batch hlen hconds
  refine ⟨_, hok, ?_⟩
  intro ca hca it hput
  constructor
  · rw [getOp_after_ok_nodup s batch _ _ hok hnd ca hca]
    simp [applyKey, hput]
  · intro old hold
    rcases lookupS_mem s.store ca.key old hold with ⟨hmem, -⟩
    have := (wf_iff s).mp hwf old hmem
    omega

/-- Witness for C5: rewriting key [1] with its identical stored value still
moves it from revision 0 to the returned revision 1. -/
theorem atomicWrite_no_noop_elision_witness :
    ∃ s', atomicWrite ⟨[⟨[1], [5], 0⟩], 1⟩
        [⟨[1], .whatever, .put ⟨[], [5], 0⟩⟩] = .ok (s', 1) ∧
      ∀ ca ∈ ([⟨[1], .whatever, .put ⟨[], [5], 0⟩⟩] : List ConditionalAction),
        ∀ it, ca.action = .put it →
        getOp s' ca.key = some ⟨ca.key, it.value, 1⟩ ∧
        ∀ old, getOp ⟨[⟨[1], [5], 0⟩], 1⟩ ca.key = some old → old.revision ≠ 1 :=
  atomicWrite_no_noop_elision ⟨[⟨[1], [5], 0⟩], 1⟩
    [⟨[1], .whatever, .put ⟨[], [5], 0⟩⟩] (by decide) (by decide) (by decide) (by decide)

theorem setPayloadKey_key (k : Bytes) (ca : ConditionalAction) :
    (setPayloadKey k ca).key = ca.key := by
  cases ca with
  | mk key cond act => cases act <;> rfl

theorem setPayloadKey_condition (k : Bytes) (ca : ConditionalAction) :
    (setPayloadKey k ca).condition = ca.condition := by
  cases ca with
  | mk key cond act => cases act <;> rfl

theorem applyAction_setPayloadKey (st : List Item) (rev : Nat) (k : Bytes)
    (ca : ConditionalAction) :
    applyAction st rev (setPayloadKey k ca) = applyAction st rev ca := by
  cases ca with
  | mk key cond act => cases act <;> rfl

theorem foldl_applyAction_setPayloadKey (rev : Nat) (k : Bytes)
    (batch : List ConditionalAction) : ∀ st,
    (batch.map (setPayloadKey k)).foldl (fun st ca => applyAction st rev ca) st
      = batch.foldl (fun st ca => applyAction st rev ca) st := by
  induction batch with
  | nil => intro st; rfl
  | cons ca rest ih =>
    intro st
    simp only [List.map_cons, List.foldl_cons, applyAction_setPayloadKey]
    exact ih _

theorem all_checkCond_setPayloadKey (s : BackendState) (k : Bytes)
    (batch : List ConditionalAction) :
    (batch.map (setPayloadKey k)).all (fun ca => checkCond s ca.key ca.condition)
      = batch.all (fun ca => checkCond s ca.key ca.condition) := by
  induction batch with
  | nil => rfl
  | cons ca rest ih =>
    simp only [List.map_cons, List.all_cons, setPayloadKey_key,
      setPayloadKey_condition, ih]

/-- C7 counterexample: two puts on the same key [1] with different values;
both conditions hold and the call succeeds, the first conditional action is a
put of [7] on key [1], yet Get on its key returns [8], not its put value —
so for batches with repeated keys, "a subsequent Get on the
ConditionalAction's key returns that key with the put value" fails. -/
theorem atomicWrite_payload_key_counterexample :
    atomicWrite ⟨[], 0⟩
        [⟨[1], .whatever, .put ⟨[], [7], 0⟩⟩, ⟨[1], .whatever, .put ⟨[], [8], 0⟩⟩]
      = .ok (⟨[⟨[1], [8], 0⟩], 1⟩, 0) ∧
    (∃ ca ∈ ([⟨[1], .whatever, .put ⟨[], [7], 0⟩⟩, ⟨[1], .whatever, .put ⟨[], [8], 0⟩⟩] :
        List ConditionalAction), ca.key = [1] ∧ ca.action = .put ⟨[], [7], 0⟩) ∧
    getOp ⟨[⟨[1], [8], 0⟩], 1⟩ [1] ≠ some ⟨[1], [7], 0⟩ :=
  ⟨rfl, by decide, by decide⟩

/-- C7 (amended: the re-read clause is restricted to batches with pairwise
distinct keys, which the counterexample forces; the payload-key clauses stay
universal): the key field embedded in a Put action's payload is ignored —
rewriting every payload key leaves the whole call unchanged, an absent key
that is not a ConditionalAction key of the batch receives no write, and (for
distinct-key batches) a Get on a put ConditionalAction's key returns that key
with the put value at the returned revision. -/
theorem atomicWrite_payload_key_ignored (s : BackendState)
    (batch : List ConditionalAction) (bad : Bytes) :
    (∀ k, atomicWrite s (batch.map (setPayloadKey k)) = atomicWrite s batch) ∧
    (getOp s bad = none → (∀ ca ∈ batch, ca.key ≠ bad) →
      ∀ s' r, atomicWrite s batch = .ok (s', r) → getOp s' bad = none) ∧
    ((batch.map (fun ca => ca.key)).Nodup →
      ∀ s' r, atomicWrite s batch = .ok (s', r) →
      ∀ ca ∈ batch, ∀ it, ca.action = .put it →
        getOp s' ca.key = some ⟨ca.key, it.value, r⟩) := by
  refine ⟨?_, ?_, ?_⟩
  · intro k
    rw [atomicWrite, atomicWrite, List.length_map, all_checkCond_setPayloadKey]
    by_cases h1 : MaxAtomicWriteSize < batch.length
    · rw [if_pos h1, if_pos h1]
    · rw [if_neg h1, if_neg h1]
      by_cases h2 : batch.all (fun ca => checkCond s ca.key ca.condition) = true
      · rw [if_pos h2, if_pos h2, foldl_applyAction_setPayloadKey]
      · rw [if_neg h2, if_neg h2]
  · intro hbad hkeys s' r hok
    have hinv := atomicWrite_ok_inv s batch s' r hok
    have hnil : batch.filter (fun cb => decide (cb.key = bad)) = [] := by
      apply filter_key_eq_nil
      intro hmem
      rcases List.mem_map.mp hmem with ⟨ca, hca, hkey⟩
      exact hkeys ca hca hkey
    rw [hinv.2.2.2.2 bad, hnil, List.foldl_nil]
    exact hbad
  · intro hnd s' r hok ca hca it hput
    have hr : r = s.nextRev := (atomicWrite_ok_inv s batch s' r hok).2.2.1
    subst hr
    rw [getOp_after_ok_nodup s batch s' _ hok hnd ca hca]
    simp [applyKey, hput]

/-- Witness for C7: a batch whose put payloads carry the bogus key [9]
behaves identically with the payload keys rewritten, and key [9] stays
NotFound after the successful call. -/
theorem atomicWrite_payload_key_ignored_witness :
    atomicWrite ⟨[], 0⟩
        (([⟨[1], .whatever, .put ⟨[9], [7], 0⟩⟩] : List ConditionalAction).map
          (setPayloadKey [4]))
      = atomicWrite ⟨[], 0⟩ [⟨[1], .whatever, .put ⟨[9], [7], 0⟩⟩] ∧
    getOp ⟨[], 0⟩ [9] = none ∧
    (∀ s' r, atomicWrite ⟨[], 0⟩ [⟨[1], .whatever, .put ⟨[9], [7], 0⟩⟩]
      = .ok (s', r) → getOp s' [9] = none) :=
  ⟨(atomicWrite_payload_key_ignored ⟨[], 0⟩
      [⟨[1], .whatever, .put ⟨[9], [7], 0⟩⟩] [9]).1 [4],
   rfl,
   (atomicWrite_payload_key_ignored ⟨[], 0⟩
      [⟨[1], .whatever, .put ⟨[9], [7], 0⟩⟩] [9]).2.1 rfl (by decide)⟩

theorem foldl_applyKey_nop (rev : Nat) (k : Bytes) (l : List ConditionalAction)
    (h : ∀ ca ∈ l, ca.action = .nop) :
    ∀ cur, l.foldl (applyKey rev k) cur = cur := by
  induction l with
  | nil => intro cur; rfl
  | cons ca rest ih =>
    intro cur
    have hca : ca.action = .nop := h ca (List.mem_cons_self _ _)
    have hstep : applyKey rev k cur ca = cur := by
      simp [applyKey, hca]
    rw [List.foldl_cons, hstep]
    exact ih (fun cb hcb => h cb (List.mem_cons.mpr (Or.inr hcb))) cur

/-- C10: in a successful `AtomicWrite`, a key all of whose batch entries are
`Nop` is left entirely untouched even though its condition gated the batch:
it re-reads exactly as before, it does not receive the batch's returned
revision, and in the `NotExists`-gated case it still reads back NotFound
after the call. -/
theorem atomicWrite_nop_frame (s : BackendState) (batch : List ConditionalAction)
    (s' : BackendState) (r : Nat)
    (hok : atomicWrite s batch = .ok (s', r))
    (ca : ConditionalAction) (hca : ca ∈ batch) (_hnop : ca.action = .nop)
    (honly : ∀ cb ∈ batch, cb.key = ca.key → cb.action = .nop) :
    getOp s' ca.key = getOp s ca.key ∧
    (wf s = true → ∀ it, getOp s ca.key = some it → it.revision ≠ r) ∧
    (ca.condition = .notExists → getOp s' ca.key = none) := by
  have hinv := atomicWrite_ok_inv s batch s' r hok
  have hframe : getOp s' ca.key = getOp s ca.key := by
    rw [hinv.2.2.2.2 ca.key]
    apply foldl_applyKey_nop
    intro cb hcb
    rcases List.mem_filter.mp hcb with ⟨hcb', hkey⟩
    exact honly cb hcb' (of_decide_eq_true hkey)
  refine ⟨hframe, ?_, ?_⟩
  · intro hwf it hit
    rcases lookupS_mem s.store ca.key it hit with ⟨hmem, -⟩
    have hlt := (wf_iff s).mp hwf it hmem
    have hr : r = s.nextRev := hinv.2.2.1
    omega
  · intro hne
    have hcond : checkCond s ca.key ca.condition = true :=
      List.all_eq_true.mp hinv.2.1 ca hca
    rw [hne] at hcond
    have hnone : getOp s ca.key = none := Option.isNone_iff_eq_none.mp hcond
    rw [hframe, hnone]

/-- Witness for C10: after the successful mixed batch, the `NotExists`+`Nop`
key [2] is untouched and still NotFound. -/
theorem atomicWrite_nop_frame_witness :
    getOp ⟨[⟨[1], [5], 1⟩], 2⟩ [2] = getOp ⟨[⟨[1], [5], 0⟩], 1⟩ [2] ∧
    getOp ⟨[⟨[1], [5], 1⟩], 2⟩ [2] = none :=
  ⟨(atomicWrite_nop_frame ⟨[⟨[1], [5], 0⟩], 1⟩
      [⟨[1], .whatever, .put ⟨[], [5], 0⟩⟩, ⟨[2], .notExists, .nop⟩]
      ⟨[⟨[1], [5], 1⟩], 2⟩ 1 rfl ⟨[2], .notExists, .nop⟩
      (by decide) rfl (by decide)).1,
   (atomicWrite_nop_frame ⟨[⟨[1], [5], 0⟩], 1⟩
      [⟨[1], .whatever, .put ⟨[], [5], 0⟩⟩, ⟨[2], .notExists, .nop⟩]
      ⟨[⟨[1], [5], 1⟩], 2⟩ 1 rfl ⟨[2], .notExists, .nop⟩
      (by decide) rfl (by decide)).2.2 rfl⟩

/-- C8 counterexample: the batch `[Put [7] at [1]; Put [8] at [1]]` and its
permutation produce different resulting states on the empty store (Get [1]
yields [8] in one order and [7] in the other), so for batches with repeated
keys the outcome is not permutation-invariant. -/
theorem atomicWrite_perm_counterexample :
    ([⟨[1], .whatever, .put ⟨[], [7], 0⟩⟩, ⟨[1], .whatever, .put ⟨[], [8], 0⟩⟩] :
        List ConditionalAction).Perm
      [⟨[1], .whatever, .put ⟨[], [8], 0⟩⟩, ⟨[1], .whatever, .put ⟨[], [7], 0⟩⟩] ∧
    getOp (awStep ⟨[], 0⟩
        [⟨[1], .whatever, .put ⟨[], [7], 0⟩⟩, ⟨[1], .whatever, .put ⟨[], [8], 0⟩⟩]).1 [1]
      ≠ getOp (awStep ⟨[], 0⟩
        [⟨[1], .whatever, .put ⟨[], [8], 0⟩⟩, ⟨[1], .whatever, .put ⟨[], [7], 0⟩⟩]).1 [1] :=
  ⟨List.Perm.swap _ _ _, by decide⟩

theorem awStep_ok (s : BackendState) (b : List ConditionalAction)
    (s' : BackendState) (r : Nat) (h : atomicWrite s b = .ok (s', r)) :
    awStep s b = (s', .ok r) := by
  rw [awStep, h]

theorem awStep_error (s : BackendState) (b : List ConditionalAction) (e : AWErr)
    (h : atomicWrite s b = .error e) : awStep s b = (s, .error e) := by
  rw [awStep, h]

/-- C8 (amended: with repeated keys only the verdict is order-invariant, as
the counterexample forces; the resulting state is permutation-invariant for
batches with pairwise-distinct keys): permuting a batch never changes the
success/failure verdict — including which error is returned and the assigned
revision — because conditions are pure predicates over the snapshot state,
and for distinct-key batches the resulting observable state is identical as
well. -/
theorem atomicWrite_perm_invariant (s : BackendState)
    (b1 b2 : List ConditionalAction) (hperm : b1.Perm b2) :
    awVerdict s b1 = awVerdict s b2 ∧
    ((b1.map (fun ca => ca.key)).Nodup →
      ∀ k, getOp (awStep s b1).1 k = getOp (awStep s b2).1 k) := by
  have hlen : b1.length = b2.length := hperm.length_eq
  have hall : b1.all (fun ca => checkCond s ca.key ca.condition)
      = b2.all (fun ca => checkCond s ca.key ca.condition) := all_perm _ hperm
  constructor
  · rw [awVerdict, awVerdict, atomicWrite, atomicWrite, hlen, hall]
    by_cases h1 : MaxAtomicWriteSize < b2.length
    · rw [if_pos h1, if_pos h1]
    · rw [if_neg h1, if_neg h1]
      by_cases h2 : b2.all (fun ca => checkCond s ca.key ca.condition) = true
      · rw [if_pos h2, if_pos h2]
        rfl
      · rw [if_neg h2, if_neg h2]
  · intro hnd k
    by_cases h1 : MaxAtomicWriteSize < b2.length
    · have e1 : atomicWrite s b1 = .error .sizeExceeded := by
        rw [atomicWrite, hlen, if_pos h1]
      have e2 : atomicWrite s b2 = .error .sizeExceeded := by
        rw [atomicWrite, if_pos h1]
      rw [awStep_error s b1 _ e1, awStep_error s b2 _ e2]
    · have hle2 : b2.length ≤ MaxAtomicWriteSize := Nat.not_lt.mp h1
      have hle1 : b1.length ≤ MaxAtomicWriteSize := by rw [hlen]; exact hle2
      by_cases h2 : b2.all (fun ca => checkCond s ca.key ca.condition) = true
      · have hnd2 : (b2.map (fun ca => ca.key)).Nodup :=
          (hperm.map (fun ca => ca.key)).nodup_iff.mp hnd
        have hok1 := atomicWrite_ok s b1 hle1 (by rw [hall]; exact h2)
        have hok2 := atomicWrite_ok s b2 hle2 h2
        have hinv1 := atomicWrite_ok_inv s b1 _ _ hok1
        have hinv2 := atomicWrite_ok_inv s b2 _ _ hok2
        rw [awStep_ok s b1 _ _ hok1, awStep_ok s b2 _ _ hok2]
        show getOp _ k = getOp _ k
        rw [hinv1.2.2.2.2 k, hinv2.2.2.2.2 k]
        have hfil : b1.filter (fun cb => decide (cb.key = k))
            = b2.filter (fun cb => decide (cb.key = k)) := by
          by_cases hex : ∃ ca ∈ b1, ca.key = k
          · rcases hex with ⟨ca, hca, hkey⟩
            subst hkey
            rw [filter_key_singleton b1 ca hnd hca,
              filter_key_singleton b2 ca hnd2 (hperm.mem_iff.mp hca)]
          · push_neg at hex
            have hn1 : k ∉ b1.map (fun ca => ca.key) := by
              intro hmem
              rcases List.mem_map.mp hmem with ⟨ca, hca, hkey⟩
              exact hex ca hca hkey
            have hn2 : k ∉ b2.map (fun ca => ca.key) := by
              intro hmem
              rcases List.mem_map.mp hmem with ⟨ca, hca, hkey⟩
              exact hex ca (hperm.mem_iff.mpr hca) hkey
            rw [filter_key_eq_nil b1 k hn1, filter_key_eq_nil b2 k hn2]
        rw [hfil]
      · have h2f : b2.all (fun ca => checkCond s ca.key ca.condition) = false :=
          Bool.eq_false_iff.mpr h2
        have hf1 := atomicWrite_failed s b1 hle1 (by rw [hall]; exact h2f)
        have hf2 := atomicWrite_failed s b2 hle2 h2f
        rw [awStep_error s b1 _ hf1, awStep_error s b2 _ hf2]

/-- Witness for C8 on a distinct-key put/delete batch and its swap. -/
theorem atomicWrite_perm_invariant_witness :
    awVerdict ⟨[], 0⟩
        [⟨[1], .whatever, .put ⟨[], [7], 0⟩⟩, ⟨[2], .whatever, .delete⟩]
      = awVerdict ⟨[], 0⟩
        [⟨[2], .whatever, .delete⟩, ⟨[1], .whatever, .put ⟨[], [7], 0⟩⟩] ∧
    getOp (awStep ⟨[], 0⟩
        [⟨[1], .whatever, .put ⟨[], [7], 0⟩⟩, ⟨[2], .whatever, .delete⟩]).1 [1]
      = getOp (awStep ⟨[], 0⟩
        [⟨[2], .whatever, .delete⟩, ⟨[1], .whatever, .put ⟨[], [7], 0⟩⟩]).1 [1] :=
  ⟨(atomicWrite_perm_invariant ⟨[], 0⟩
      [⟨[1], .whatever, .put ⟨[], [7], 0⟩⟩, ⟨[2], .whatever, .delete⟩]
      [⟨[2], .whatever, .delete⟩, ⟨[1], .whatever, .put ⟨[], [7], 0⟩⟩]
      (List.Perm.swap _ _ _)).1,
   (atomicWrite_perm_invariant ⟨[], 0⟩
      [⟨[1], .whatever, .put ⟨[], [7], 0⟩⟩, ⟨[2], .whatever, .delete⟩]
      [⟨[2], .whatever, .delete⟩, ⟨[1], .whatever, .put ⟨[], [7], 0⟩⟩]
      (List.Perm.swap _ _ _)).2 (by decide) [1]⟩

theorem obsOf_some (s : BackendState) (k : Bytes) (o : Obs)
    (h : obsOf s k = some o) :
    ∃ it, lookupS s.store k = some it ∧ it.value = o.value ∧
      it.revision = o.revision := by
  rw [obsOf] at h
  rcases hlk : lookupS s.store k with _ | it
  · rw [hlk, Option.map_none'] at h
    cases h
  · rw [hlk, Option.map_some'] at h
    injection h with h
    exact ⟨it, rfl, congrArg Obs.value h, congrArg Obs.revision h⟩

theorem incrAttempt_succeeds (ck : Bytes) (s : BackendState) (o : Obs) (it : Item)
    (hit : lookupS s.store ck = some it) (hrev : it.revision = o.revision) :
    incrAttempt ck s o =
      ({ store := putStore s.store ck (encodeNat (decodeNat o.value + 1)) s.nextRev,
         nextRev := s.nextRev + 1 }, true) := by
  have hconds : (incrBatch ck o).all
      (fun ca => checkCond s ca.key ca.condition) = true := by
    simp only [incrBatch, List.all_cons, List.all_nil, Bool.and_true]
    show checkCond s ck (.revision o.revision) = true
    simp only [checkCond, hit, decide_eq_true_eq]
    exact hrev
  have hok := atomicWrite_ok s (incrBatch ck o) (by show 1 ≤ 64; omega) hconds
  rw [incrAttempt, hok]
  rfl

theorem incrAttempt_fails (ck : Bytes) (s : BackendState) (o : Obs)
    (hfail : checkCond s ck (.revision o.revision) = false) :
    incrAttempt ck s o = (s, false) := by
  have hf := atomicWrite_failed s (incrBatch ck o) (by show 1 ≤ 64; omega)
    (by simp only [incrBatch, List.all_cons, List.all_nil, Bool.and_true]; exact hfail)
  rw [incrAttempt, hf]

theorem incrAttempt_counterInv (ck : Bytes) (hist : List BackendState)
    (s : BackendState) (n : Nat) (o : Obs)
    (hinv : CounterInv ck hist s n)
    (hobs : some o ∈ (s :: hist).map (fun h => obsOf h ck)) :
    CounterInv ck (s :: hist) (incrAttempt ck s o).1
      (n + (if (incrAttempt ck s o).2 then 1 else 0)) := by
  rcases hinv with ⟨hwf, r, hcur, hdom⟩
  rcases obsOf_some s ck _ hcur with ⟨it, hit, hval, hrev⟩
  have ho : ∃ h ∈ s :: hist, obsOf h ck = some o := by
    rcases List.mem_map.mp hobs with ⟨h, hh, he⟩
    exact ⟨h, hh, he⟩
  rcases ho with ⟨hstate, hhmem, hhobs⟩
  have hdomo := hdom hstate hhmem o hhobs
  by_cases hcase : o.revision = r
  · have hoval : o.value = encodeNat n := hdomo.2 hcase
    have hrev' : it.revision = r := hrev
    have hsucc := incrAttempt_succeeds ck s o it hit (by rw [hrev', hcase])
    have hcount : (n + (if (incrAttempt ck s o).2 then 1 else 0)) = n + 1 := by
      rw [hsucc]
      rfl
    have hnewlook : lookupS
        (putStore s.store ck (encodeNat (decodeNat o.value + 1)) s.nextRev) ck
        = some ⟨ck, encodeNat (n + 1), s.nextRev⟩ := by
      rw [lookupS_putStore, if_pos rfl, hoval, decodeNat_encodeNat]
    have hnewobs : obsOf
        ({ store := putStore s.store ck (encodeNat (decodeNat o.value + 1)) s.nextRev,
           nextRev := s.nextRev + 1 } : BackendState) ck
        = some ⟨encodeNat (n + 1), s.nextRev⟩ := by
      show (lookupS
        (putStore s.store ck (encodeNat (decodeNat o.value + 1)) s.nextRev) ck).map
          (fun it => (⟨it.value, it.revision⟩ : Obs)) = _
      rw [hnewlook, Option.map_some']
    rw [hcount, hsucc]
    refine ⟨wf_putStore s ck _ hwf, s.nextRev, hnewobs, ?_⟩
    intro h hh o' ho'
    rcases List.mem_cons.mp hh with he | hh'
    · subst he
      rw [hnewobs] at ho'
      injection ho' with ho''
      have hrev'' : o'.revision = s.nextRev := by rw [← ho'']
      have hval'' : o'.value = encodeNat (n + 1) := by rw [← ho'']
      constructor
      · show o'.revision < s.nextRev + 1
        omega
      · intro _
        exact hval''
    · have hd := hdom h hh' o' ho'
      constructor
      · show o'.revision < s.nextRev + 1
        have := hd.1
        omega
      · intro he
        exact absurd he (by have := hd.1; omega)
  · have hfailc : checkCond s ck (.revision o.revision) = false := by
      simp only [checkCond, hit, decide_eq_false_iff_not]
      rw [hrev]
      exact fun e => hcase e.symm
    rw [incrAttempt_fails ck s o hfailc]
    show CounterInv ck (s :: hist) s n
    refine ⟨hwf, r, hcur, ?_⟩
    intro h hh o' ho'
    rcases List.mem_cons.mp hh with he | hh'
    · exact hdom h (by rw [he]; exact List.mem_cons_self _ _) o' ho'
    · exact hdom h hh' o' ho'

theorem runIncr_counterInv (ck : Bytes) (os : List Obs) :
    ∀ hist s n, CounterInv ck hist s n →
      validTrace ck hist s os = true →
      ∃ hist', CounterInv ck hist' (runIncr ck s os).1 (n + (runIncr ck s os).2) := by
  induction os with
  | nil =>
    intro hist s n hinv _
    refine ⟨hist, ?_⟩
    show CounterInv ck hist s (n + 0)
    rw [Nat.add_zero]
    exact hinv
  | cons o os ih =>
    intro hist s n hinv hvalid
    simp only [validTrace, Bool.and_eq_true] at hvalid
    have hobs := of_decide_eq_true hvalid.1
    have hstep := incrAttempt_counterInv ck hist s n o hinv hobs
    rcases ih (s :: hist) (incrAttempt ck s o).1 _ hstep hvalid.2 with ⟨hist', hfin⟩
    refine ⟨hist', ?_⟩
    show CounterInv ck hist' (runIncr ck (incrAttempt ck s o).1 os).1
      (n + ((if (incrAttempt ck s o).2 then 1 else 0)
        + (runIncr ck (incrAttempt ck s o).1 os).2))
    have hassoc : n + ((if (incrAttempt ck s o).2 then 1 else 0)
        + (runIncr ck (incrAttempt ck s o).1 os).2)
      = (n + (if (incrAttempt ck s o).2 then 1 else 0))
        + (runIncr ck (incrAttempt ck s o).1 os).2 := by
      omega
    rw [hassoc]
    exact hfin

theorem incrAttempt_fails_of_stale (ck : Bytes) (o : Obs) (s : BackendState)
    (h : StaleInv ck o.revision s) : (incrAttempt ck s o).2 = false := by
  rcases h with ⟨hwf, it, hit, hlt⟩
  have hc : checkCond s ck (.revision o.revision) = false := by
    simp only [checkCond, hit, decide_eq_false_iff_not]
    omega
  rw [incrAttempt_fails ck s o hc]

theorem incrAttempt_staleInv (ck : Bytes) (p : Nat) (s : BackendState) (o : Obs)
    (h : StaleInv ck p s) : StaleInv ck p (incrAttempt ck s o).1 := by
  rcases h with ⟨hwf, it, hit, hlt⟩
  by_cases hc : it.revision = o.revision
  · rw [incrAttempt_succeeds ck s o it hit hc]
    refine ⟨wf_putStore s ck _ hwf,
      ⟨ck, encodeNat (decodeNat o.value + 1), s.nextRev⟩, ?_, ?_⟩
    · show lookupS
        (putStore s.store ck (encodeNat (decodeNat o.value + 1)) s.nextRev) ck = _
      rw [lookupS_putStore, if_pos rfl]
    · show p < s.nextRev
      have := (wf_iff s).mp hwf it (lookupS_mem _ _ _ hit).1
      omega
  · rw [incrAttempt_fails ck s o
      (by simp only [checkCond, hit, decide_eq_false_iff_not]; exact hc)]
    exact ⟨hwf, it, hit, hlt⟩

theorem runIncr_staleInv (ck : Bytes) (p : Nat) (os : List Obs) :
    ∀ s, StaleInv ck p s → StaleInv ck p (runIncr ck s os).1 := by
  induction os with
  | nil =>
    intro s h
    exact h
  | cons o os ih =>
    intro s h
    show StaleInv ck p (runIncr ck (incrAttempt ck s o).1 os).1
    exact ih _ (incrAttempt_staleInv ck p s o h)

/-- C9: under any interleaving of worker increment attempts — each an atomic
read-compute-AtomicWrite(Revision-conditioned) step whose observation comes
from a strongly consistent read of some state of the run — the counter loses
no update and double-applies none: the final counter value equals the initial
value plus the total number of successful increments; moreover at most one
attempt referencing a given prior revision ever succeeds — once one does, the
same observation fails against every later state of the run. -/
theorem atomicWrite_concurrent_counter (ck : Bytes) (s : BackendState)
    (n0 r0 : Nat) (os : List Obs)
    (hobs : obsOf s ck = some ⟨encodeNat n0, r0⟩)
    (hwf : wf s = true) :
    (validTrace ck [] s os = true →
      ∃ r, obsOf (runIncr ck s os).1 ck
        = some ⟨encodeNat (n0 + (runIncr ck s os).2), r⟩) ∧
    (∀ o : Obs, (incrAttempt ck s o).2 = true →
      ∀ os', (incrAttempt ck (runIncr ck (incrAttempt ck s o).1 os').1 o).2
        = false) := by
  rcases obsOf_some s ck _ hobs with ⟨it0, hit0, hval0, hrev0⟩
  have hrev0' : it0.revision = r0 := hrev0
  have hlt0 : it0.revision < s.nextRev := (wf_iff s).mp hwf it0 (lookupS_mem _ _ _ hit0).1
  constructor
  · intro hvalid
    have hinv0 : CounterInv ck [] s n0 := by
      refine ⟨hwf, r0, hobs, ?_⟩
      intro h hh o' ho'
      rcases List.mem_cons.mp hh with he | hh'
      · subst he
        rw [hobs] at ho'
        injection ho' with ho''
        have hr' : o'.revision = r0 := by rw [← ho'']
        have hv' : o'.value = encodeNat n0 := by rw [← ho'']
        exact ⟨by omega, fun _ => hv'⟩
      · cases hh'
    rcases runIncr_counterInv ck os [] s n0 hinv0 hvalid with ⟨hist', hfin⟩
    rcases hfin with ⟨-, r, hq, -⟩
    exact ⟨r, hq⟩
  · intro o hsucc os'
    have hcond : checkCond s ck (.revision o.revision) = true := by
      by_contra hc
      rw [incrAttempt_fails ck s o (Bool.eq_false_iff.mpr hc)] at hsucc
      cases hsucc
    have hito : ∃ it, lookupS s.store ck = some it ∧ it.revision = o.revision := by
      rcases hlk : lookupS s.store ck with _ | it
      · rw [checkCond.eq_def] at hcond
        simp only [hlk] at hcond
        cases hcond
      · refine ⟨it, rfl, ?_⟩
        simp only [checkCond, hlk, decide_eq_true_eq] at hcond
        exact hcond
    rcases hito with ⟨it, hitk, hitrev⟩
    have hstale : StaleInv ck o.revision (incrAttempt ck s o).1 := by
      rw [incrAttempt_succeeds ck s o it hitk hitrev]
      refine ⟨wf_putStore s ck _ hwf,
        ⟨ck, encodeNat (decodeNat o.value + 1), s.nextRev⟩, ?_, ?_⟩
      · show lookupS
          (putStore s.store ck (encodeNat (decodeNat o.value + 1)) s.nextRev) ck = _
        rw [lookupS_putStore, if_pos rfl]
      · show o.revision < s.nextRev
        have := (wf_iff s).mp hwf it (lookupS_mem _ _ _ hitk).1
        omega
    exact incrAttempt_fails_of_stale ck o _ (runIncr_staleInv ck o.revision os' _ hstale)

/-- Witness for C9: one fresh and one stale observation of a counter starting
at 0 — the first attempt succeeds, the second fails, and the final counter
encodes exactly the success count. -/
theorem atomicWrite_concurrent_counter_witness :
    ∃ r, obsOf (runIncr [3] ⟨[⟨[3], encodeNat 0, 0⟩], 1⟩
        [⟨encodeNat 0, 0⟩, ⟨encodeNat 0, 0⟩]).1 [3]
      = some ⟨encodeNat (0 + (runIncr [3] ⟨[⟨[3], encodeNat 0, 0⟩], 1⟩
        [⟨encodeNat 0, 0⟩, ⟨encodeNat 0, 0⟩]).2), r⟩ :=
  (atomicWrite_concurrent_counter [3] ⟨[⟨[3], encodeNat 0, 0⟩], 1⟩ 0 0
    [⟨encodeNat 0, 0⟩, ⟨encodeNat 0, 0⟩] rfl rfl).1 (by decide)

end Backend
